import Mathlib

/-!
Shallow embedding of the comparison-recording and reconciliation engine of
pytest-golden (`pytest_golden/plugin.py`).

Values appearing in golden files are modelled by the inductive `Val`; the
parsed YAML documents are association lists of string keys.  File IO and
text formatting (ruamel round-trip metadata, literal block style) are out of
scope of the claims; a document is represented by its key/value content.
-/

namespace PytestGolden

/-- Scalar values stored in a golden file and compared by tests.  Python
`None` is `Val.none`; Python structural equality `==` on these values is
`DecidableEq`. -/
inductive Val where
  | none
  | bool (b : Bool)
  | int (n : Int)
  | str (s : String)
deriving DecidableEq, Repr

/-- Values as stored in the reconciled `actual` map of teardown: either a
plain value or the `_AbsentValue` sentinel (plugin.py line 326).  The Python
dataclass `_AbsentValue()` compares equal to another `_AbsentValue()` and
unequal to every plain value, which is exactly `DecidableEq` here. -/
inductive MVal where
  | absent
  | val (v : Val)
deriving DecidableEq, Repr

/-- Data of `GoldenComparison` (plugin.py line 275): one comparison of an
output placeholder with an actual value.  The `fixt` back-reference is the
enclosing session and is kept implicit.  The mutable `approved` flag is
`False` at construction (the dataclass default, never overridden by
`__eq__`/`__ne__`) and is only ever set by `approve()` during the teardown
walk; since the flag lives on the shared Python object — several
`_ComparisonRecord`s can wrap the same `GoldenComparison` when its truth
value is evaluated more than once — it is modelled as walk state indexed by
the object's identity (see `Record` and `WalkState.approvedIds`), not as a
field of the immutable event data. -/
structure GoldenComparison where
  key : String
  other : Val
  optional : Bool
  eq : Bool
deriving DecidableEq, Repr

/-- One entry of the session event log `_records`: an `_AssertionRecord`
(plugin.py line 321) holding the passing assert's line, or a
`_ComparisonRecord` (line 307) holding the comparison and the line number of
its recorded call-site location.  `cid` is the Python object identity of the
wrapped `GoldenComparison`: records created by separate evaluations of the
same comparison object share its `cid` and hence its mutable `approved`
flag. -/
inductive Record where
  | assertion (lineno : Nat)
  | comparison (cid : Nat) (c : GoldenComparison) (lineno : Nat)
deriving DecidableEq, Repr

/-- Usage warnings the engine can emit, keyed by the data identifying them
in the message text and by the location they are attributed to. -/
inductive Warning where
  | outsideAssert (key : String) (lineno : Nat)
  | conflicting (key : String) (lineno : Nat)
  | unusedFields (fields : List String) (itemName : String) (file : String) (line : Nat)
  | onlyEqComparison (key : String)
deriving DecidableEq, Repr

/-- Python exception classes raised by the engine: `TypeError` for comparing
two placeholders (plugin.py lines 258 and 263) and the plugin's own
`UsageError` for a non-mapping file top level (line 124). -/
inductive PyError where
  | typeError
  | usageError
deriving DecidableEq, Repr

/-- Top level of a parsed YAML document. -/
inductive YamlTop where
  | mapping (m : List (String × Val))
  | scalar (v : Val)
deriving DecidableEq, Repr

/-- Top-level shape check of `GoldenTestFixture.__post_init__` (plugin.py
lines 122-124): a non-mapping top level raises `UsageError`. -/
def checkTopLevel : YamlTop → Except PyError (List (String × Val))
  | .mapping m => .ok m
  | .scalar _ => .error .usageError

/-- Data of `GoldenOutput` (plugin.py line 246): a placeholder for one named
expected value; the session back-reference is implicit. -/
structure GoldenOutput where
  key : String
  optional : Bool
deriving DecidableEq, Repr

/-- Right operand of a placeholder comparison: either another placeholder or
a plain value. -/
inductive Operand where
  | placeholder (p : GoldenOutput)
  | value (v : Val)
deriving DecidableEq, Repr

/-- Result of constructing a comparison: the comparison created, together
with the warnings issued during construction. -/
structure CompResult where
  comparison : GoldenComparison
  warnings : List Warning
deriving DecidableEq, Repr

/-- Model of `GoldenOutput.__eq__` (plugin.py lines 256-259): comparing to
another placeholder raises `TypeError`; otherwise it builds a
`GoldenComparison` with `eq := true` and no warning. -/
def goldenEq (p : GoldenOutput) (other : Operand) : Except PyError CompResult :=
  match other with
  | .placeholder _ => .error .typeError
  | .value v => .ok ⟨⟨p.key, v, p.optional, true⟩, []⟩

/-- Model of `GoldenOutput.__ne__` (plugin.py lines 261-269): comparing to
another placeholder raises `TypeError`; otherwise it warns that only `==`
should be used and builds a `GoldenComparison` with `eq := false`. -/
def goldenNe (p : GoldenOutput) (other : Operand) : Except PyError CompResult :=
  match other with
  | .placeholder _ => .error .typeError
  | .value v => .ok ⟨⟨p.key, v, p.optional, false⟩, [.onlyEqComparison p.key]⟩

/-- Code object of a call-stack frame, abstracted to what the recorder
distinguishes: the test function, the two helper scopes, or anything else. -/
inductive FrameCode where
  | testFunc
  | mayRaise
  | captureLogs
  | other (n : Nat)
deriving DecidableEq, Repr

/-- Membership in the `approved` code-object list of
`GoldenComparison.__bool__` (plugin.py lines 286-290). -/
def isApprovedFrame : FrameCode → Bool
  | .testFunc => true
  | .mayRaise => true
  | .captureLogs => true
  | .other _ => false

/-- Stack scan of `__bool__` (plugin.py lines 291-294): find the first frame
whose code object is approved, returning that frame's current line. -/
def findApproved : List (FrameCode × Nat) → Option Nat
  | [] => Option.none
  | (c, l) :: rest => if isApprovedFrame c then some l else findApproved rest

/-- Mutable per-test state of a `GoldenTestFixture` in update mode:
`_used_fields` (a Python set, modelled as a list with membership semantics)
and `_records` in execution order. -/
structure Session where
  usedFields : List String
  records : List Record
deriving DecidableEq, Repr

def emptySession : Session := ⟨[], []⟩

/-- Model of `GoldenComparison.__bool__` (plugin.py lines 284-295): scan the
call stack; at the first approved frame append one `_ComparisonRecord`
carrying that frame's line and stop scanning; in every case return `eq`.
`cid` is the identity of the comparison object being evaluated: evaluating
the same object again appends another record with the same `cid`. -/
def boolEval (cid : Nat) (c : GoldenComparison) (stack : List (FrameCode × Nat))
    (s : Session) : Session × Bool :=
  match findApproved stack with
  | some l => ({ s with records := s.records ++ [Record.comparison cid c l] }, c.eq)
  | Option.none => (s, c.eq)

/-- Operations of a test body that touch the session state: input reads
(`GoldenTestFixture.__getitem__` line 133 and `.get` line 137), output
placeholder creation (`GoldenOutputProxy.__getitem__` line 237 and `.get`
line 241), truth-value evaluation of a comparison, and the
`pytest_assertion_pass` hook (line 379) appending an `_AssertionRecord`. -/
inductive SessionOp where
  | inputItem (k : String)
  | inputGet (k : String)
  | outItem (k : String)
  | outGet (k : String)
  | evalBool (cid : Nat) (c : GoldenComparison) (stack : List (FrameCode × Nat))
  | assertionPass (lineno : Nat)
deriving DecidableEq, Repr

/-- Effect of one operation on the session state.  Input reads and output
placeholder creation each add their key to `_used_fields`. -/
def applyOp (s : Session) : SessionOp → Session
  | .inputItem k => { s with usedFields := k :: s.usedFields }
  | .inputGet k => { s with usedFields := k :: s.usedFields }
  | .outItem k => { s with usedFields := k :: s.usedFields }
  | .outGet k => { s with usedFields := k :: s.usedFields }
  | .evalBool cid c stack => (boolEval cid c stack s).1
  | .assertionPass l => { s with records := s.records ++ [Record.assertion l] }

/-- Run a test body, given as its sequence of session operations, from the
fresh session state. -/
def runOps (ops : List SessionOp) : Session := ops.foldl applyOp emptySession

/-- Keys read through the input API (`golden[k]` / `golden.get(k)`) during a
list of operations. -/
def inputReadKeys : List SessionOp → List String
  | [] => []
  | .inputItem k :: rest => k :: inputReadKeys rest
  | .inputGet k :: rest => k :: inputReadKeys rest
  | _ :: rest => inputReadKeys rest

/-- Association-list lookup, modelling Python dict indexing.  The operations
below keep keys unique. -/
def alookup {α : Type} (k : String) : List (String × α) → Option α
  | [] => Option.none
  | (k1, v) :: rest => if k1 = k then some v else alookup k rest

/-- Dict assignment `d[k] = v`: overwrite in place if present, else append. -/
def aset {α : Type} (k : String) (v : α) : List (String × α) → List (String × α)
  | [] => [(k, v)]
  | (k1, v1) :: rest => if k1 = k then (k, v) :: rest else (k1, v1) :: aset k v rest

/-- Dict removal `d.pop(k, None)`. -/
def adel {α : Type} (k : String) : List (String × α) → List (String × α)
  | [] => []
  | (k1, v1) :: rest => if k1 = k then adel k rest else (k1, v1) :: adel k rest

/-- Last element of a list, `Option`-valued. -/
def lastVal {α : Type} : List α → Option α
  | [] => Option.none
  | [v] => some v
  | _ :: v :: rest => lastVal (v :: rest)

/-- Value a comparison contributes to the reconciled map (plugin.py lines
169-171): an optional comparison whose actual value is `None` contributes
the absent marker instead of the raw value. -/
def storedVal (c : GoldenComparison) : MVal :=
  if c.optional = true ∧ c.other = Val.none then MVal.absent else MVal.val c.other

/-- State of the teardown reverse walk (plugin.py lines 148-150): the
accumulating `actual` map, the `approved_lines` set, the set of comparison
object identities whose shared `approved` flag has been set by `approve()`
(plugin.py lines 160-161 and 301-304), and the pending warnings `to_warn` in
the order they were appended. -/
structure WalkState where
  actual : List (String × MVal)
  approvedLines : List Nat
  approvedIds : List Nat
  warns : List Warning
deriving DecidableEq, Repr

def initWalkState : WalkState := ⟨[], [], [], []⟩

/-- Model of lines 160-161 of plugin.py: if the record's call-site line is
already approved, set the shared `approved` flag of its comparison object. -/
def approveIfLine (st : WalkState) (cid : Nat) (l : Nat) : WalkState :=
  if l ∈ st.approvedLines then { st with approvedIds := cid :: st.approvedIds }
  else st

/-- Model of lines 162-179 of plugin.py, after the approval update: a
comparison record is dropped with a warning when the hook is enabled and its
object's shared `approved` flag is not set, contributes its value on first
sight of its key, and is dropped with a conflict warning when its key
already holds a different value. -/
def processComparison (e : Bool) (st : WalkState) (cid : Nat)
    (c : GoldenComparison) (l : Nat) : WalkState :=
  if e = true ∧ cid ∉ st.approvedIds then
    { st with warns := st.warns ++ [Warning.outsideAssert c.key l] }
  else
    match alookup c.key st.actual with
    | some prev =>
        if prev ≠ storedVal c then
          { st with warns := st.warns ++ [Warning.conflicting c.key l] }
        else
          { st with actual := aset c.key (storedVal c) st.actual }
    | Option.none => { st with actual := aset c.key (storedVal c) st.actual }

/-- One step of the reverse walk (plugin.py lines 155-179), processing a
single record: an assertion record approves its line; a comparison record
first lets its own line approve its object's shared flag, then is gated on
that flag. -/
def processRecord (e : Bool) (st : WalkState) : Record → WalkState
  | .assertion l => { st with approvedLines := l :: st.approvedLines }
  | .comparison cid c l => processComparison e (approveIfLine st cid l) cid c l

/-- Whether, processing the given suffix of the log in reverse, the walk
ever sets the shared `approved` flag of the comparison object `cid`: some
comparison record of that object in the suffix has an assertion-pass record
for its line strictly later in the log. -/
def objApproved (cid : Nat) : List Record → Bool
  | [] => false
  | .assertion _ :: rest => objApproved cid rest
  | .comparison cid2 _ l :: rest =>
      if cid2 = cid ∧ Record.assertion l ∈ rest then true
      else objApproved cid rest

/-- The walk exactly as the source performs it: a fold over the reversed
record list (`for record in reversed(self._records)`, plugin.py line 155). -/
def runTeardownWalk (e : Bool) (records : List Record) : WalkState :=
  records.reverse.foldl (processRecord e) initWalkState

/-- Recursive restatement of the reverse walk: the state in which the head
(earliest) record is processed is the walk of the tail. -/
def runRecords (e : Bool) : List Record → WalkState
  | [] => initWalkState
  | r :: rest => processRecord e (runRecords e rest) r

/-- Merge loop of teardown (plugin.py lines 189-193): absent markers delete
their key from the on-disk document, all other values overwrite it. -/
def mergeDoc (doc : List (String × Val)) (actual : List (String × MVal)) :
    List (String × Val) :=
  actual.foldl
    (fun outs kv =>
      match kv.2 with
      | MVal.absent => adel kv.1 outs
      | MVal.val x => aset kv.1 x outs)
    doc

/-- Model of `outputs.keys() - self._used_fields` (plugin.py line 195): the
document keys not marked used, in document order (the source sorts them only
for the warning message text). -/
def unusedKeysOf (doc : List (String × Val)) (used : List String) : List String :=
  (doc.map Prod.fst).filter (fun k => k ∉ used)

/-- Static configuration of a fixture: update/compare mode, whether the
assertion-pass hook is enabled, and the test function's source location
(`func.__code__.co_filename` / `co_firstlineno`, plugin.py lines 197-202). -/
structure Fixture where
  updateGoldens : Bool
  assertionsEnabled : Bool
  funcFile : String
  funcLine : Nat
deriving DecidableEq, Repr

/-- Outcome of teardown: resulting document contents, the warnings emitted
in emission order, and whether the file was rewritten. -/
structure TeardownOut where
  doc : List (String × Val)
  warnings : List Warning
  wrote : Bool
deriving DecidableEq, Repr

/-- Model of `GoldenTestFixture.teardown` (plugin.py lines 144-205).  In
compare mode it returns immediately, leaving the document untouched.  In
update mode it runs the reverse walk, emits the collected warnings in
chronological order (`reversed(to_warn)`, line 181), merges the reconciled
map into the freshly loaded on-disk document, emits the unused-fields
warning attributed to the test function's location, and writes the result
atomically. -/
def teardown (fx : Fixture) (itemName : String) (s : Session)
    (doc : List (String × Val)) : TeardownOut :=
  if fx.updateGoldens = false then ⟨doc, [], false⟩
  else
    let st := runTeardownWalk fx.assertionsEnabled s.records
    let merged := mergeDoc doc st.actual
    let unused := unusedKeysOf merged s.usedFields
    ⟨merged,
      st.warns.reverse ++
        (if unused = [] then [] else
          [Warning.unusedFields unused itemName fx.funcFile fx.funcLine]),
      true⟩

/-- Comparison records the teardown gate accepts for key `k`, in execution
order, each projected to the value it contributes: a comparison record is
accepted when the hook is disabled, or its own line has an assertion-pass
record later in the log, or its object's shared `approved` flag was already
set by a record of the same object later in the log. -/
def acceptedFor (e : Bool) (k : String) : List Record → List MVal
  | [] => []
  | .assertion _ :: rest => acceptedFor e k rest
  | .comparison cid c l :: rest =>
      if c.key = k ∧
          (e = false ∨ Record.assertion l ∈ rest ∨ objApproved cid rest = true) then
        storedVal c :: acceptedFor e k rest
      else acceptedFor e k rest

/-- Variant of `acceptedFor` projecting the raw actual value (before the
optional-None conversion) of each accepted comparison. -/
def acceptedRawFor (e : Bool) (k : String) : List Record → List Val
  | [] => []
  | .assertion _ :: rest => acceptedRawFor e k rest
  | .comparison cid c l :: rest =>
      if c.key = k ∧
          (e = false ∨ Record.assertion l ∈ rest ∨ objApproved cid rest = true) then
        c.other :: acceptedRawFor e k rest
      else acceptedRawFor e k rest

/-- All comparison records for key `k`, with no approval gate, projected to
their contributed values, in execution order. -/
def comparisonsFor (k : String) : List Record → List MVal
  | [] => []
  | .assertion _ :: rest => comparisonsFor k rest
  | .comparison _ c _ :: rest =>
      if c.key = k then storedVal c :: comparisonsFor k rest
      else comparisonsFor k rest

/-- Recognizer for the unused-fields warning. -/
def isUnusedWarning : Warning → Bool
  | .unusedFields _ _ _ _ => true
  | _ => false

/-! Basic lemmas about the association-list operations and `lastVal`. -/

theorem alookup_aset_self {α : Type} (k : String) (v : α) (l : List (String × α)) :
    alookup k (aset k v l) = some v := by
  induction l with
  | nil => simp [aset, alookup]
  | cons kv rest ih =>
      obtain ⟨k1, v1⟩ := kv
      by_cases h : k1 = k
      · subst h; simp [aset, alookup]
      · simp [aset, alookup, h, ih]

theorem alookup_aset_ne {α : Type} {k1 k : String} (hne : k1 ≠ k) (v : α)
    (l : List (String × α)) : alookup k (aset k1 v l) = alookup k l := by
  induction l with
  | nil => simp [aset, alookup, hne]
  | cons kv rest ih =>
      obtain ⟨k2, v2⟩ := kv
      by_cases h : k2 = k1
      · subst h; simp [aset, alookup, hne]
      · by_cases h2 : k2 = k
        · subst h2; simp [aset, alookup, h]
        · simp [aset, alookup, h, h2, ih]

theorem alookup_adel_self {α : Type} (k : String) (l : List (String × α)) :
    alookup k (adel k l) = Option.none := by
  induction l with
  | nil => simp [adel, alookup]
  | cons kv rest ih =>
      obtain ⟨k1, v1⟩ := kv
      by_cases h : k1 = k
      · subst h; simp [adel, ih]
      · simp [adel, alookup, h, ih]

theorem alookup_adel_ne {α : Type} {k1 k : String} (hne : k1 ≠ k)
    (l : List (String × α)) : alookup k (adel k1 l) = alookup k l := by
  induction l with
  | nil => simp [adel, alookup]
  | cons kv rest ih =>
      obtain ⟨k2, v2⟩ := kv
      by_cases h : k2 = k1
      · subst h; simp [adel, alookup, hne, ih]
      · by_cases h2 : k2 = k
        · subst h2; simp [adel, alookup, h, ih]
        · simp [adel, alookup, h, h2, ih]

theorem aset_cons_self {α : Type} (k : String) (v v1 : α) (rest : List (String × α)) :
    aset k v ((k, v1) :: rest) = (k, v) :: rest := by
  simp [aset]

theorem aset_cons_ne {α : Type} {k1 k : String} (h : k1 ≠ k) (v v1 : α)
    (rest : List (String × α)) :
    aset k v ((k1, v1) :: rest) = (k1, v1) :: aset k v rest := by
  simp [aset, h]

theorem alookup_eq_none_of_not_mem {α : Type} {k : String} {l : List (String × α)}
    (h : k ∉ l.map Prod.fst) : alookup k l = Option.none := by
  induction l with
  | nil => rfl
  | cons kv rest ih =>
      obtain ⟨k1, v1⟩ := kv
      rw [List.map_cons] at h
      have h1 : ¬ k1 = k := fun hh => h (by rw [hh]; exact List.mem_cons_self _ _)
      have h2 : k ∉ rest.map Prod.fst := fun hh => h (List.mem_cons_of_mem _ hh)
      simp [alookup, h1, ih h2]

theorem mem_keys_aset {α : Type} {a k : String} (v : α) (l : List (String × α))
    (h : a ∈ (aset k v l).map Prod.fst) : a = k ∨ a ∈ l.map Prod.fst := by
  induction l with
  | nil =>
      rw [show aset k v ([] : List (String × α)) = [(k, v)] from rfl] at h
      simp only [List.map_cons, List.map_nil, List.mem_singleton] at h
      exact Or.inl h
  | cons kv rest ih =>
      obtain ⟨k1, v1⟩ := kv
      by_cases hk : k1 = k
      · subst hk
        rw [aset_cons_self, List.map_cons, List.mem_cons] at h
        rcases h with h | h
        · exact Or.inl h
        · exact Or.inr (by rw [List.map_cons]; exact List.mem_cons_of_mem _ h)
      · rw [aset_cons_ne hk, List.map_cons, List.mem_cons] at h
        rcases h with h | h
        · refine Or.inr ?_
          rw [List.map_cons, h]
          exact List.mem_cons_self _ _
        · rcases ih h with h2 | h2
          · exact Or.inl h2
          · exact Or.inr (by rw [List.map_cons]; exact List.mem_cons_of_mem _ h2)

theorem nodup_keys_aset {α : Type} (k : String) (v : α) (l : List (String × α))
    (h : (l.map Prod.fst).Nodup) : ((aset k v l).map Prod.fst).Nodup := by
  induction l with
  | nil => simp [aset]
  | cons kv rest ih =>
      obtain ⟨k1, v1⟩ := kv
      rw [List.map_cons, List.nodup_cons] at h
      by_cases hk : k1 = k
      · subst hk
        rw [aset_cons_self, List.map_cons, List.nodup_cons]
        exact h
      · rw [aset_cons_ne hk, List.map_cons, List.nodup_cons]
        refine ⟨fun hmem => ?_, ih h.2⟩
        rcases mem_keys_aset v rest hmem with h2 | h2
        · exact hk h2
        · exact h.1 h2

theorem lastVal_cons_cons {α : Type} (a b : α) (l : List α) :
    lastVal (a :: b :: l) = lastVal (b :: l) := rfl

theorem lastVal_cons_isSome {α : Type} (a : α) (l : List α) :
    (lastVal (a :: l)).isSome = true := by
  induction l generalizing a with
  | nil => rfl
  | cons b rest ih => rw [lastVal_cons_cons]; exact ih b

theorem eq_nil_of_lastVal_eq_none {α : Type} {l : List α}
    (h : lastVal l = Option.none) : l = [] := by
  cases l with
  | nil => rfl
  | cons a rest =>
      have hs := lastVal_cons_isSome a rest
      rw [h] at hs
      simp at hs

/-! Projections of one walk step, used to reason about the branches of
`processRecord` without unfolding it everywhere. -/

theorem actual_approveIfLine (st : WalkState) (cid l : Nat) :
    (approveIfLine st cid l).actual = st.actual := by
  unfold approveIfLine
  split <;> rfl

theorem warns_approveIfLine (st : WalkState) (cid l : Nat) :
    (approveIfLine st cid l).warns = st.warns := by
  unfold approveIfLine
  split <;> rfl

theorem approvedLines_approveIfLine (st : WalkState) (cid l : Nat) :
    (approveIfLine st cid l).approvedLines = st.approvedLines := by
  unfold approveIfLine
  split <;> rfl

theorem mem_approvedIds_approveIfLine (st : WalkState) (cid0 cid l : Nat) :
    cid0 ∈ (approveIfLine st cid l).approvedIds ↔
      ((l ∈ st.approvedLines ∧ cid0 = cid) ∨ cid0 ∈ st.approvedIds) := by
  unfold approveIfLine
  split
  · next h => simp [List.mem_cons, h]
  · next h => simp [h]

theorem approvedLines_processComparison (e : Bool) (st : WalkState) (cid : Nat)
    (c : GoldenComparison) (l : Nat) :
    (processComparison e st cid c l).approvedLines = st.approvedLines := by
  unfold processComparison
  split
  · rfl
  · split
    · split <;> rfl
    · rfl

theorem approvedIds_processComparison (e : Bool) (st : WalkState) (cid : Nat)
    (c : GoldenComparison) (l : Nat) :
    (processComparison e st cid c l).approvedIds = st.approvedIds := by
  unfold processComparison
  split
  · rfl
  · split
    · split <;> rfl
    · rfl

theorem processRecord_assertion (e : Bool) (st : WalkState) (l : Nat) :
    processRecord e st (Record.assertion l) =
      { st with approvedLines := l :: st.approvedLines } := rfl

theorem processRecord_comparison (e : Bool) (st : WalkState) (cid : Nat)
    (c : GoldenComparison) (l : Nat) :
    processRecord e st (Record.comparison cid c l) =
      processComparison e (approveIfLine st cid l) cid c l := rfl

/-- Equivalence of the source-shaped fold over the reversed list with the
structural recursion used in the proofs. -/
theorem runTeardownWalk_eq (e : Bool) (records : List Record) :
    runTeardownWalk e records = runRecords e records := by
  induction records with
  | nil => rfl
  | cons r rest ih =>
      show (r :: rest).reverse.foldl (processRecord e) initWalkState = _
      rw [List.reverse_cons, List.foldl_append]
      show processRecord e (runTeardownWalk e rest) r = _
      rw [ih]
      rfl

theorem runRecords_cons (e : Bool) (r : Record) (rest : List Record) :
    runRecords e (r :: rest) = processRecord e (runRecords e rest) r := rfl

/-- Lines approved at any point of the reverse walk are exactly the lines of
the assertion-pass records in the part of the log already processed, i.e.
the part strictly later in execution order. -/
theorem mem_approvedLines (e : Bool) (l : Nat) (records : List Record) :
    l ∈ (runRecords e records).approvedLines ↔ Record.assertion l ∈ records := by
  induction records with
  | nil => simp [runRecords, initWalkState]
  | cons r rest ih =>
      cases r with
      | assertion l1 =>
          rw [runRecords_cons, processRecord_assertion]
          simp only [List.mem_cons, ih]
          constructor
          · rintro (h | h)
            · exact Or.inl (by rw [h])
            · exact Or.inr h
          · rintro (h | h)
            · exact Or.inl (by cases h; rfl)
            · exact Or.inr h
      | comparison cid c l1 =>
          rw [runRecords_cons, processRecord_comparison,
            approvedLines_processComparison, approvedLines_approveIfLine]
          simp only [List.mem_cons, ih]
          constructor
          · exact fun h => Or.inr h
          · rintro (h | h)
            · cases h
            · exact h

/-- Comparison-object flags set at any point of the reverse walk are exactly
the objects `objApproved` computes over the part of the log already
processed. -/
theorem mem_approvedIds (e : Bool) (cid0 : Nat) (records : List Record) :
    cid0 ∈ (runRecords e records).approvedIds ↔ objApproved cid0 records = true := by
  induction records with
  | nil => simp [runRecords, initWalkState, objApproved]
  | cons r rest ih =>
      cases r with
      | assertion l =>
          rw [runRecords_cons, processRecord_assertion]
          show cid0 ∈ (runRecords e rest).approvedIds ↔ _
          rw [ih]
          rfl
      | comparison cid c l =>
          rw [runRecords_cons, processRecord_comparison, approvedIds_processComparison,
            mem_approvedIds_approveIfLine, mem_approvedLines, ih]
          show (Record.assertion l ∈ rest ∧ cid0 = cid) ∨ objApproved cid0 rest = true ↔
            (if cid = cid0 ∧ Record.assertion l ∈ rest then true
              else objApproved cid0 rest) = true
          by_cases hc : cid = cid0 ∧ Record.assertion l ∈ rest
          · rw [if_pos hc]
            constructor
            · intro _
              rfl
            · intro _
              exact Or.inl ⟨hc.2, hc.1.symm⟩
          · rw [if_neg hc]
            constructor
            · rintro (⟨hm, he⟩ | h)
              · exact absurd ⟨he.symm, hm⟩ hc
              · exact h
            · intro h
              exact Or.inr h

/-- Each walk step only appends to the pending warnings. -/
theorem warns_processComparison_mono (e : Bool) (st : WalkState) (cid : Nat)
    (c : GoldenComparison) (l : Nat) {w : Warning} (h : w ∈ st.warns) :
    w ∈ (processComparison e st cid c l).warns := by
  unfold processComparison
  split
  · exact List.mem_append_left _ h
  · split
    · split
      · exact List.mem_append_left _ h
      · exact h
    · exact h

theorem warns_processRecord_mono (e : Bool) (st : WalkState) (r : Record)
    {w : Warning} (h : w ∈ st.warns) : w ∈ (processRecord e st r).warns := by
  cases r with
  | assertion l =>
      rw [processRecord_assertion]
      exact h
  | comparison cid c l =>
      rw [processRecord_comparison]
      refine warns_processComparison_mono e _ cid c l ?_
      rw [warns_approveIfLine]
      exact h

theorem warns_runRecords_mono (e : Bool) (l1 l2 : List Record) {w : Warning}
    (h : w ∈ (runRecords e l2).warns) : w ∈ (runRecords e (l1 ++ l2)).warns := by
  induction l1 with
  | nil => exact h
  | cons r rest ih =>
      rw [List.cons_append, runRecords_cons]
      exact warns_processRecord_mono e _ r ih

/-- Correspondence between the walk's drop-with-warning condition — checked
on the shared object flag after the record's own line had its chance to
approve it — and the acceptance condition used by the observer functions. -/
theorem gate_iff (e : Bool) (cid l : Nat) (rest : List Record) :
    (e = true ∧ cid ∉ (approveIfLine (runRecords e rest) cid l).approvedIds) ↔
      ¬ (e = false ∨ Record.assertion l ∈ rest ∨ objApproved cid rest = true) := by
  rw [mem_approvedIds_approveIfLine, mem_approvedLines, mem_approvedIds]
  cases e <;> simp

/-! Conditional full-state equations for the gated part of the comparison
step, one per branch of the source. -/

theorem processComparison_unapproved {e : Bool} (st : WalkState) {cid : Nat}
    {c : GoldenComparison} {l : Nat} (hg : e = true ∧ cid ∉ st.approvedIds) :
    processComparison e st cid c l =
      { st with warns := st.warns ++ [Warning.outsideAssert c.key l] } := by
  show (if e = true ∧ cid ∉ st.approvedIds then _ else _) = _
  rw [if_pos hg]

theorem processComparison_conflict {e : Bool} (st : WalkState) {cid : Nat}
    {c : GoldenComparison} {l : Nat} {prev : MVal}
    (hg : ¬ (e = true ∧ cid ∉ st.approvedIds))
    (hl : alookup c.key st.actual = some prev) (hne : prev ≠ storedVal c) :
    processComparison e st cid c l =
      { st with warns := st.warns ++ [Warning.conflicting c.key l] } := by
  show (if e = true ∧ cid ∉ st.approvedIds then _ else _) = _
  rw [if_neg hg, hl]
  show (if prev ≠ storedVal c then _ else _) = _
  rw [if_pos hne]

theorem processComparison_assign_of_some {e : Bool} (st : WalkState) {cid : Nat}
    {c : GoldenComparison} {l : Nat} {prev : MVal}
    (hg : ¬ (e = true ∧ cid ∉ st.approvedIds))
    (hl : alookup c.key st.actual = some prev) (heq : prev = storedVal c) :
    processComparison e st cid c l =
      { st with actual := aset c.key (storedVal c) st.actual } := by
  show (if e = true ∧ cid ∉ st.approvedIds then _ else _) = _
  rw [if_neg hg, hl]
  show (if prev ≠ storedVal c then _ else _) = _
  rw [if_neg (not_not.mpr heq)]

theorem processComparison_assign_of_none {e : Bool} (st : WalkState) {cid : Nat}
    {c : GoldenComparison} {l : Nat}
    (hg : ¬ (e = true ∧ cid ∉ st.approvedIds))
    (hl : alookup c.key st.actual = Option.none) :
    processComparison e st cid c l =
      { st with actual := aset c.key (storedVal c) st.actual } := by
  show (if e = true ∧ cid ∉ st.approvedIds then _ else _) = _
  rw [if_neg hg, hl]

theorem acceptedFor_cons_assertion (e : Bool) (k : String) (l : Nat)
    (rest : List Record) :
    acceptedFor e k (Record.assertion l :: rest) = acceptedFor e k rest := rfl

theorem acceptedFor_cons_comparison (e : Bool) (k : String) (cid : Nat)
    (c : GoldenComparison) (l : Nat) (rest : List Record) :
    acceptedFor e k (Record.comparison cid c l :: rest) =
      if c.key = k ∧
          (e = false ∨ Record.assertion l ∈ rest ∨ objApproved cid rest = true) then
        storedVal c :: acceptedFor e k rest
      else acceptedFor e k rest := rfl

/-- Central characterization of the reconciled map: its value at key `k` is
the value contributed by the last-executed accepted comparison for `k`. -/
theorem alookup_actual (e : Bool) (k : String) (records : List Record) :
    alookup k (runRecords e records).actual = lastVal (acceptedFor e k records) := by
  induction records with
  | nil => rfl
  | cons r rest ih =>
      cases r with
      | assertion l =>
          rw [runRecords_cons, processRecord_assertion, acceptedFor_cons_assertion]
          exact ih
      | comparison cid c l =>
          rw [runRecords_cons, processRecord_comparison, acceptedFor_cons_comparison]
          by_cases hacc : e = false ∨ Record.assertion l ∈ rest ∨
              objApproved cid rest = true
          · have hg : ¬ (e = true ∧
                cid ∉ (approveIfLine (runRecords e rest) cid l).approvedIds) :=
              fun hgate => (gate_iff e cid l rest).mp hgate hacc
            by_cases hk : c.key = k
            · subst hk
              rw [if_pos (⟨rfl, hacc⟩ : c.key = c.key ∧
                (e = false ∨ Record.assertion l ∈ rest ∨ objApproved cid rest = true))]
              cases hrest : acceptedFor e c.key rest with
              | nil =>
                  have halo : alookup c.key
                      (approveIfLine (runRecords e rest) cid l).actual = Option.none := by
                    rw [actual_approveIfLine, ih, hrest]
                    rfl
                  rw [processComparison_assign_of_none _ hg halo]
                  dsimp only
                  rw [alookup_aset_self]
                  rfl
              | cons v0 vrest =>
                  have hsome : ∃ prev, lastVal (v0 :: vrest) = some prev := by
                    cases hcon : lastVal (v0 :: vrest) with
                    | none =>
                        have := lastVal_cons_isSome v0 vrest
                        rw [hcon] at this
                        simp at this
                    | some prev => exact ⟨prev, rfl⟩
                  obtain ⟨prev, hlast⟩ := hsome
                  have halo : alookup c.key
                      (approveIfLine (runRecords e rest) cid l).actual = some prev := by
                    rw [actual_approveIfLine, ih, hrest, hlast]
                  by_cases hpv : prev = storedVal c
                  · rw [processComparison_assign_of_some _ hg halo hpv]
                    dsimp only
                    rw [alookup_aset_self, lastVal_cons_cons, hlast, hpv]
                  · rw [processComparison_conflict _ hg halo hpv]
                    dsimp only
                    rw [actual_approveIfLine, ih, hrest, lastVal_cons_cons]
            · rw [if_neg (fun hc : c.key = k ∧
                  (e = false ∨ Record.assertion l ∈ rest ∨ objApproved cid rest = true) =>
                    hk hc.1)]
              cases halo : alookup c.key
                  (approveIfLine (runRecords e rest) cid l).actual with
              | none =>
                  rw [processComparison_assign_of_none _ hg halo]
                  dsimp only
                  rw [alookup_aset_ne hk, actual_approveIfLine, ih]
              | some prev =>
                  by_cases hpv : prev = storedVal c
                  · rw [processComparison_assign_of_some _ hg halo hpv]
                    dsimp only
                    rw [alookup_aset_ne hk, actual_approveIfLine, ih]
                  · rw [processComparison_conflict _ hg halo hpv]
                    dsimp only
                    rw [actual_approveIfLine, ih]
          · have hgate : e = true ∧
                cid ∉ (approveIfLine (runRecords e rest) cid l).approvedIds :=
              (gate_iff e cid l rest).mpr hacc
            rw [processComparison_unapproved _ hgate]
            dsimp only
            rw [actual_approveIfLine, if_neg (fun hc : c.key = k ∧
                (e = false ∨ Record.assertion l ∈ rest ∨ objApproved cid rest = true) =>
                  hacc hc.2)]
            exact ih

theorem not_mem_append_singleton {w x : Warning} {ws : List Warning} (hne : w ≠ x) :
    w ∉ ws ++ [x] ↔ w ∉ ws := by
  constructor
  · intro h hm
    exact h (List.mem_append_left _ hm)
  · intro h hm
    rcases List.mem_append.mp hm with hm | hm
    · exact h hm
    · rw [List.mem_singleton] at hm
      exact hne hm

/-- Characterization of conflict warnings: the walk produces no
conflicting-values warning for key `k` exactly when every accepted
comparison for `k` contributes the value the walk finally chose, i.e. the
last-executed accepted one. -/
theorem no_conflict_iff (e : Bool) (k : String) (records : List Record) :
    (∀ l, Warning.conflicting k l ∉ (runRecords e records).warns) ↔
    (∀ v ∈ acceptedFor e k records, some v = lastVal (acceptedFor e k records)) := by
  induction records with
  | nil =>
      constructor
      · intro _ v hv
        exact absurd hv (List.not_mem_nil v)
      · intro _ l hl
        exact absurd hl (List.not_mem_nil _)
  | cons r rest ih =>
      cases r with
      | assertion l =>
          rw [runRecords_cons, processRecord_assertion, acceptedFor_cons_assertion]
          exact ih
      | comparison cid c l =>
          rw [runRecords_cons, processRecord_comparison, acceptedFor_cons_comparison]
          by_cases hacc : e = false ∨ Record.assertion l ∈ rest ∨
              objApproved cid rest = true
          · have hg : ¬ (e = true ∧
                cid ∉ (approveIfLine (runRecords e rest) cid l).approvedIds) :=
              fun hgate => (gate_iff e cid l rest).mp hgate hacc
            by_cases hk : c.key = k
            · subst hk
              rw [if_pos (⟨rfl, hacc⟩ : c.key = c.key ∧
                (e = false ∨ Record.assertion l ∈ rest ∨ objApproved cid rest = true))]
              cases hrest : acceptedFor e c.key rest with
              | nil =>
                  have halo : alookup c.key
                      (approveIfLine (runRecords e rest) cid l).actual = Option.none := by
                    rw [actual_approveIfLine, alookup_actual, hrest]
                    rfl
                  rw [processComparison_assign_of_none _ hg halo]
                  dsimp only
                  rw [warns_approveIfLine]
                  refine iff_of_true (ih.mpr ?_) ?_
                  · rw [hrest]
                    intro v hv
                    exact absurd hv (List.not_mem_nil v)
                  · intro v hv
                    rw [List.mem_singleton.mp hv]
                    rfl
              | cons v0 vrest =>
                  have hsome : ∃ prev, lastVal (v0 :: vrest) = some prev := by
                    cases hcon : lastVal (v0 :: vrest) with
                    | none =>
                        have := lastVal_cons_isSome v0 vrest
                        rw [hcon] at this
                        simp at this
                    | some prev => exact ⟨prev, rfl⟩
                  obtain ⟨prev, hlast⟩ := hsome
                  have halo : alookup c.key
                      (approveIfLine (runRecords e rest) cid l).actual = some prev := by
                    rw [actual_approveIfLine, alookup_actual, hrest, hlast]
                  by_cases hpv : prev = storedVal c
                  · rw [processComparison_assign_of_some _ hg halo hpv]
                    dsimp only
                    rw [warns_approveIfLine, ih, hrest]
                    constructor
                    · intro hR v hv
                      rw [lastVal_cons_cons, hlast]
                      rcases List.mem_cons.mp hv with h | h
                      · rw [h, ← hpv]
                      · have := hR v h
                        rw [hlast] at this
                        exact this
                    · intro hR v hv
                      have := hR v (List.mem_cons_of_mem _ hv)
                      rw [lastVal_cons_cons] at this
                      exact this
                  · rw [processComparison_conflict _ hg halo hpv]
                    dsimp only
                    refine iff_of_false ?_ ?_
                    · intro hL
                      exact hL l (List.mem_append_right _ (List.mem_singleton.mpr rfl))
                    · intro hR
                      have := hR (storedVal c) (List.mem_cons_self _ _)
                      rw [lastVal_cons_cons, hlast] at this
                      exact hpv (Option.some.inj this).symm
            · rw [if_neg (fun hc : c.key = k ∧
                  (e = false ∨ Record.assertion l ∈ rest ∨ objApproved cid rest = true) =>
                    hk hc.1)]
              cases halo : alookup c.key
                  (approveIfLine (runRecords e rest) cid l).actual with
              | none =>
                  rw [processComparison_assign_of_none _ hg halo]
                  dsimp only
                  rw [warns_approveIfLine]
                  exact ih
              | some prev =>
                  by_cases hpv : prev = storedVal c
                  · rw [processComparison_assign_of_some _ hg halo hpv]
                    dsimp only
                    rw [warns_approveIfLine]
                    exact ih
                  · rw [processComparison_conflict _ hg halo hpv]
                    dsimp only
                    rw [forall_congr' fun l2 => not_mem_append_singleton
                      (fun h => by injection h with h1 h2; exact hk h1.symm)]
                    rw [warns_approveIfLine]
                    exact ih
          · have hgate : e = true ∧
                cid ∉ (approveIfLine (runRecords e rest) cid l).approvedIds :=
              (gate_iff e cid l rest).mpr hacc
            rw [processComparison_unapproved _ hgate]
            dsimp only
            rw [if_neg (fun hc : c.key = k ∧
                (e = false ∨ Record.assertion l ∈ rest ∨ objApproved cid rest = true) =>
                  hacc hc.2)]
            rw [forall_congr' fun l2 => not_mem_append_singleton
              (fun h => Warning.noConfusion h)]
            rw [warns_approveIfLine]
            exact ih

/-- Keys of the reconciled map are unique: the walk only ever assigns
through `aset`. -/
theorem nodup_actual (e : Bool) (records : List Record) :
    ((runRecords e records).actual.map Prod.fst).Nodup := by
  induction records with
  | nil => exact List.nodup_nil
  | cons r rest ih =>
      cases r with
      | assertion l =>
          rw [runRecords_cons, processRecord_assertion]
          exact ih
      | comparison cid c l =>
          rw [runRecords_cons, processRecord_comparison]
          by_cases hg : e = true ∧
              cid ∉ (approveIfLine (runRecords e rest) cid l).approvedIds
          · rw [processComparison_unapproved _ hg]
            dsimp only
            rw [actual_approveIfLine]
            exact ih
          · cases halo : alookup c.key
                (approveIfLine (runRecords e rest) cid l).actual with
            | none =>
                rw [processComparison_assign_of_none _ hg halo]
                dsimp only
                rw [actual_approveIfLine]
                exact nodup_keys_aset _ _ _ ih
            | some prev =>
                by_cases hpv : prev = storedVal c
                · rw [processComparison_assign_of_some _ hg halo hpv]
                  dsimp only
                  rw [actual_approveIfLine]
                  exact nodup_keys_aset _ _ _ ih
                · rw [processComparison_conflict _ hg halo hpv]
                  dsimp only
                  rw [actual_approveIfLine]
                  exact ih

/-- Lookup in the merged document: an absent marker deletes the key, any
other reconciled value overwrites it, and keys the reconciled map does not
mention keep their on-disk value. -/
theorem alookup_mergeDoc (doc : List (String × Val)) (actual : List (String × MVal))
    (k : String) (hnd : (actual.map Prod.fst).Nodup) :
    alookup k (mergeDoc doc actual) =
      match alookup k actual with
      | some MVal.absent => Option.none
      | some (MVal.val x) => some x
      | Option.none => alookup k doc := by
  induction actual generalizing doc with
  | nil => rfl
  | cons kv rest ih =>
      obtain ⟨k1, v1⟩ := kv
      rw [List.map_cons, List.nodup_cons] at hnd
      cases v1 with
      | absent =>
          have hL : alookup k (mergeDoc doc ((k1, MVal.absent) :: rest)) =
              alookup k (mergeDoc (adel k1 doc) rest) := rfl
          rw [hL, ih _ hnd.2]
          by_cases hk : k1 = k
          · subst hk
            rw [show alookup k1 ((k1, MVal.absent) :: rest) = some MVal.absent from
              by simp [alookup]]
            rw [alookup_eq_none_of_not_mem hnd.1]
            show alookup k1 (adel k1 doc) = Option.none
            exact alookup_adel_self k1 doc
          · rw [show alookup k ((k1, MVal.absent) :: rest) = alookup k rest from
              by simp [alookup, hk]]
            cases halo : alookup k rest with
            | none =>
                show alookup k (adel k1 doc) = alookup k doc
                exact alookup_adel_ne hk doc
            | some v => cases v <;> rfl
      | val x1 =>
          have hL : alookup k (mergeDoc doc ((k1, MVal.val x1) :: rest)) =
              alookup k (mergeDoc (aset k1 x1 doc) rest) := rfl
          rw [hL, ih _ hnd.2]
          by_cases hk : k1 = k
          · subst hk
            rw [show alookup k1 ((k1, MVal.val x1) :: rest) = some (MVal.val x1) from
              by simp [alookup]]
            rw [alookup_eq_none_of_not_mem hnd.1]
            show alookup k1 (aset k1 x1 doc) = some x1
            exact alookup_aset_self k1 x1 doc
          · rw [show alookup k ((k1, MVal.val x1) :: rest) = alookup k rest from
              by simp [alookup, hk]]
            cases halo : alookup k rest with
            | none =>
                show alookup k (aset k1 x1 doc) = alookup k doc
                exact alookup_aset_ne hk x1 doc
            | some v => cases v <;> rfl

/-- With the assertion-pass hook disabled the approval gate never fires, so
the accepted comparisons for a key are all of them. -/
theorem acceptedFor_false (k : String) (records : List Record) :
    acceptedFor false k records = comparisonsFor k records := by
  induction records with
  | nil => rfl
  | cons r rest ih =>
      cases r with
      | assertion l =>
          rw [acceptedFor_cons_assertion]
          exact ih
      | comparison cid c l =>
          rw [acceptedFor_cons_comparison]
          show (if c.key = k ∧ ((false : Bool) = false ∨ Record.assertion l ∈ rest ∨
              objApproved cid rest = true) then _ else _) = _
          by_cases hk : c.key = k
          · rw [if_pos ⟨hk, Or.inl rfl⟩]
            show storedVal c :: acceptedFor false k rest =
              comparisonsFor k (Record.comparison cid c l :: rest)
            rw [show comparisonsFor k (Record.comparison cid c l :: rest) =
                storedVal c :: comparisonsFor k rest from by simp [comparisonsFor, hk]]
            rw [ih]
          · rw [if_neg (fun hc => hk hc.1)]
            rw [show comparisonsFor k (Record.comparison cid c l :: rest) =
                comparisonsFor k rest from by simp [comparisonsFor, hk]]
            exact ih

/-- With the hook disabled the walk never emits an outside-of-assert
warning. -/
theorem no_outsideAssert_disabled (records : List Record) :
    ∀ key l, Warning.outsideAssert key l ∉ (runRecords false records).warns := by
  induction records with
  | nil =>
      intro key l hl
      exact absurd hl (List.not_mem_nil _)
  | cons r rest ih =>
      cases r with
      | assertion l1 =>
          rw [runRecords_cons, processRecord_assertion]
          exact ih
      | comparison cid c l1 =>
          intro key l
          rw [runRecords_cons, processRecord_comparison]
          have hg : ¬ ((false : Bool) = true ∧
              cid ∉ (approveIfLine (runRecords false rest) cid l1).approvedIds) :=
            fun h => Bool.false_ne_true h.1
          cases halo : alookup c.key
              (approveIfLine (runRecords false rest) cid l1).actual with
          | none =>
              rw [processComparison_assign_of_none _ hg halo]
              dsimp only
              rw [warns_approveIfLine]
              exact ih key l
          | some prev =>
              by_cases hpv : prev = storedVal c
              · rw [processComparison_assign_of_some _ hg halo hpv]
                dsimp only
                rw [warns_approveIfLine]
                exact ih key l
              · rw [processComparison_conflict _ hg halo hpv]
                dsimp only
                rw [not_mem_append_singleton (fun h => Warning.noConfusion h),
                  warns_approveIfLine]
                exact ih key l

/-- Warnings produced inside the walk are only outside-of-assert and
conflicting-values warnings, never the unused-fields warning. -/
theorem no_unused_in_walk (e : Bool) (records : List Record) :
    ∀ w ∈ (runRecords e records).warns, isUnusedWarning w = false := by
  induction records with
  | nil =>
      intro w hw
      exact absurd hw (List.not_mem_nil w)
  | cons r rest ih =>
      cases r with
      | assertion l =>
          rw [runRecords_cons, processRecord_assertion]
          exact ih
      | comparison cid c l =>
          intro w hw
          rw [runRecords_cons, processRecord_comparison] at hw
          by_cases hg : e = true ∧
              cid ∉ (approveIfLine (runRecords e rest) cid l).approvedIds
          · rw [processComparison_unapproved _ hg] at hw
            dsimp only at hw
            rw [warns_approveIfLine] at hw
            rcases List.mem_append.mp hw with hw | hw
            · exact ih w hw
            · rw [List.mem_singleton.mp hw]
              rfl
          · cases halo : alookup c.key
                (approveIfLine (runRecords e rest) cid l).actual with
            | none =>
                rw [processComparison_assign_of_none _ hg halo] at hw
                dsimp only at hw
                rw [warns_approveIfLine] at hw
                exact ih w hw
            | some prev =>
                by_cases hpv : prev = storedVal c
                · rw [processComparison_assign_of_some _ hg halo hpv] at hw
                  dsimp only at hw
                  rw [warns_approveIfLine] at hw
                  exact ih w hw
                · rw [processComparison_conflict _ hg halo hpv] at hw
                  dsimp only at hw
                  rw [warns_approveIfLine] at hw
                  rcases List.mem_append.mp hw with hw | hw
                  · exact ih w hw
                  · rw [List.mem_singleton.mp hw]
                    rfl

/-! Lemmas about the session operations. -/

theorem usedFields_boolEval (cid : Nat) (c : GoldenComparison)
    (stack : List (FrameCode × Nat)) (s : Session) :
    (boolEval cid c stack s).1.usedFields = s.usedFields := by
  show (match findApproved stack with
    | some l => ({ s with records := s.records ++ [Record.comparison cid c l] }, c.eq)
    | Option.none => (s, c.eq)).1.usedFields = s.usedFields
  cases findApproved stack <;> rfl

theorem usedFields_applyOp_mono {k : String} {s : Session} (op : SessionOp)
    (h : k ∈ s.usedFields) : k ∈ (applyOp s op).usedFields := by
  cases op with
  | inputItem k1 => exact List.mem_cons_of_mem _ h
  | inputGet k1 => exact List.mem_cons_of_mem _ h
  | outItem k1 => exact List.mem_cons_of_mem _ h
  | outGet k1 => exact List.mem_cons_of_mem _ h
  | evalBool cid c stack =>
      show k ∈ (boolEval cid c stack s).1.usedFields
      rw [usedFields_boolEval]
      exact h
  | assertionPass l => exact h

theorem mem_usedFields_foldl (ops : List SessionOp) (s : Session) (k : String)
    (h : k ∈ s.usedFields ∨ SessionOp.outItem k ∈ ops ∨ SessionOp.outGet k ∈ ops) :
    k ∈ (ops.foldl applyOp s).usedFields := by
  induction ops generalizing s with
  | nil =>
      rcases h with h | h | h
      · exact h
      · exact absurd h (List.not_mem_nil _)
      · exact absurd h (List.not_mem_nil _)
  | cons op rest ih =>
      rw [List.foldl_cons]
      rcases h with h | h | h
      · exact ih _ (Or.inl (usedFields_applyOp_mono op h))
      · rcases List.mem_cons.mp h with h | h
        · subst h
          exact ih _ (Or.inl (List.mem_cons_self _ _))
        · exact ih _ (Or.inr (Or.inl h))
      · rcases List.mem_cons.mp h with h | h
        · subst h
          exact ih _ (Or.inl (List.mem_cons_self _ _))
        · exact ih _ (Or.inr (Or.inr h))

theorem boolEval_snd (cid : Nat) (c : GoldenComparison)
    (stack : List (FrameCode × Nat)) (s : Session) :
    (boolEval cid c stack s).2 = c.eq := by
  show (match findApproved stack with
    | some l => ({ s with records := s.records ++ [Record.comparison cid c l] }, c.eq)
    | Option.none => (s, c.eq)).2 = c.eq
  cases findApproved stack <;> rfl

/-! Unfolding equations for teardown. -/

theorem teardown_compare (fx : Fixture) (h : fx.updateGoldens = false)
    (itemName : String) (s : Session) (doc : List (String × Val)) :
    teardown fx itemName s doc = ⟨doc, [], false⟩ := by
  rw [teardown, if_pos h]

theorem teardown_update (fx : Fixture) (h : fx.updateGoldens = true)
    (itemName : String) (s : Session) (doc : List (String × Val)) :
    teardown fx itemName s doc =
      ⟨mergeDoc doc (runTeardownWalk fx.assertionsEnabled s.records).actual,
        (runTeardownWalk fx.assertionsEnabled s.records).warns.reverse ++
          (if unusedKeysOf
              (mergeDoc doc (runTeardownWalk fx.assertionsEnabled s.records).actual)
              s.usedFields = [] then []
            else
              [Warning.unusedFields
                (unusedKeysOf
                  (mergeDoc doc (runTeardownWalk fx.assertionsEnabled s.records).actual)
                  s.usedFields)
                itemName fx.funcFile fx.funcLine]),
        true⟩ := by
  rw [teardown, if_neg (fun hc => by rw [h] at hc; exact Bool.noConfusion hc)]

/-! Claim theorems. -/

/-- C1 counterexample to the claim as stated: one comparison object (id 0)
is evaluated twice, yielding records at lines 5 and 12, and only line 12 has
a later assertion-pass.  Processing the line-12 record sets the object's
shared `approved` flag, and the sticky flag then lets the line-5 record —
which has no same-line assertion-pass later in the log — pass the gate: it
is marked approved and no outside-of-an-assert warning is emitted at all,
refuting the claimed if-and-only-if. -/
theorem c1_counterexample :
    (Record.assertion 5 ∉
        [Record.comparison 0 ⟨"k", Val.int 1, false, true⟩ 12, Record.assertion 12])
    ∧ 0 ∈ (runTeardownWalk true
        [Record.comparison 0 ⟨"k", Val.int 1, false, true⟩ 5,
         Record.comparison 0 ⟨"k", Val.int 1, false, true⟩ 12,
         Record.assertion 12]).approvedIds
    ∧ (runTeardownWalk true
        [Record.comparison 0 ⟨"k", Val.int 1, false, true⟩ 5,
         Record.comparison 0 ⟨"k", Val.int 1, false, true⟩ 12,
         Record.assertion 12]).warns = [] := by
  decide

/-- C1 (amended): during the teardown reverse walk, a recorded comparison's
object is marked approved exactly when its own call-site line has an
assertion-pass record strictly later in the log, or a later record of the
same comparison object was already so approved (the `approved` flag lives on
the shared object and is sticky); the approved-lines set consulted at the
comparison holds exactly the lines of strictly later assertion-pass records.
With the hook enabled, a comparison whose object is unapproved when the walk
reaches it emits the outside-of-an-assert warning and leaves the reconciled
map unchanged at its step, contributing nothing. -/
theorem c1_reverse_walk_approval (pre post : List Record) (cid : Nat)
    (c : GoldenComparison) (l : Nat) :
    (l ∈ (runTeardownWalk true post).approvedLines ↔ Record.assertion l ∈ post)
    ∧ (cid ∈ (runTeardownWalk true
          (Record.comparison cid c l :: post)).approvedIds ↔
        (Record.assertion l ∈ post ∨ objApproved cid post = true))
    ∧ (¬ (Record.assertion l ∈ post ∨ objApproved cid post = true) →
        (runTeardownWalk true (Record.comparison cid c l :: post)).actual =
          (runTeardownWalk true post).actual
        ∧ Warning.outsideAssert c.key l ∈
            (runTeardownWalk true
              (pre ++ Record.comparison cid c l :: post)).warns) := by
  simp only [runTeardownWalk_eq]
  refine ⟨mem_approvedLines true l post, ?_, ?_⟩
  · rw [runRecords_cons, processRecord_comparison, approvedIds_processComparison,
      mem_approvedIds_approveIfLine, mem_approvedLines, mem_approvedIds]
    constructor
    · rintro (⟨hm, _⟩ | h)
      · exact Or.inl hm
      · exact Or.inr h
    · rintro (hm | h)
      · exact Or.inl ⟨hm, rfl⟩
      · exact Or.inr h
  · intro hnot
    have hgate : (true : Bool) = true ∧
        cid ∉ (approveIfLine (runRecords true post) cid l).approvedIds :=
      (gate_iff true cid l post).mpr (by
        rintro (h | h | h)
        · exact Bool.noConfusion h
        · exact hnot (Or.inl h)
        · exact hnot (Or.inr h))
    constructor
    · rw [runRecords_cons, processRecord_comparison,
        processComparison_unapproved _ hgate]
      dsimp only
      rw [actual_approveIfLine]
    · refine warns_runRecords_mono true pre (Record.comparison cid c l :: post) ?_
      rw [runRecords_cons, processRecord_comparison,
        processComparison_unapproved _ hgate]
      dsimp only
      exact List.mem_append_right _ (List.mem_singleton.mpr rfl)

/-- Witness for C1 (amended) at a concrete input: an empty tail means the
comparison object is unapproved (no and never was), warned about, and
contributes nothing. -/
theorem c1_reverse_walk_approval_witness :
    (3 ∈ (runTeardownWalk true ([] : List Record)).approvedLines ↔
        Record.assertion 3 ∈ ([] : List Record))
    ∧ (7 ∈ (runTeardownWalk true
          (Record.comparison 7 ⟨"k", Val.int 1, false, true⟩ 3 :: [])).approvedIds ↔
        (Record.assertion 3 ∈ ([] : List Record) ∨ objApproved 7 [] = true))
    ∧ (¬ (Record.assertion 3 ∈ ([] : List Record) ∨ objApproved 7 [] = true) →
        (runTeardownWalk true
            (Record.comparison 7 ⟨"k", Val.int 1, false, true⟩ 3 :: [])).actual =
          (runTeardownWalk true ([] : List Record)).actual
        ∧ Warning.outsideAssert "k" 3 ∈
            (runTeardownWalk true
              ([] ++ Record.comparison 7 ⟨"k", Val.int 1, false, true⟩ 3 :: [])).warns) :=
  c1_reverse_walk_approval [] [] 7 ⟨"k", Val.int 1, false, true⟩ 3

/-- C2 counterexample to the claim as stated: the two accepted comparisons
for key `k` carry raw actual values that are equal (both `None`), yet the
conflicting-values warning is emitted, because one comparison is optional
(contributing the absent marker) and the other is not (contributing
`None`). -/
theorem c2_counterexample :
    acceptedRawFor true "k"
        [Record.comparison 0 ⟨"k", Val.none, false, true⟩ 1, Record.assertion 1,
         Record.comparison 1 ⟨"k", Val.none, true, true⟩ 2, Record.assertion 2]
      = [Val.none, Val.none]
    ∧ Warning.conflicting "k" 1 ∈ (runTeardownWalk true
        [Record.comparison 0 ⟨"k", Val.none, false, true⟩ 1, Record.assertion 1,
         Record.comparison 1 ⟨"k", Val.none, true, true⟩ 2, Record.assertion 2]).warns := by
  decide

/-- C2 (amended): when the two accepted comparisons for a key contribute,
after the optional-None-to-absent conversion, values that are not equal,
teardown emits a conflicting-values warning and the reconciled map keeps the
last-executed comparison's contribution; equal contributions produce no
conflict warning; and the kept contribution is what the merge persists. -/
theorem c2_conflicting_values (k : String) (records : List Record)
    (doc : List (String × Val)) (v1 v2 : MVal)
    (h : acceptedFor true k records = [v1, v2]) :
    (v1 ≠ v2 →
        (∃ l, Warning.conflicting k l ∈ (runTeardownWalk true records).warns)
        ∧ alookup k (runTeardownWalk true records).actual = some v2)
    ∧ (v1 = v2 → ∀ l, Warning.conflicting k l ∉ (runTeardownWalk true records).warns)
    ∧ (∀ x, v2 = MVal.val x →
        alookup k (mergeDoc doc (runTeardownWalk true records).actual) = some x)
    ∧ (v2 = MVal.absent →
        alookup k (mergeDoc doc (runTeardownWalk true records).actual) = Option.none) := by
  simp only [runTeardownWalk_eq]
  have hlook : alookup k (runRecords true records).actual = some v2 := by
    rw [alookup_actual, h]
    rfl
  refine ⟨?_, ?_, ?_, ?_⟩
  · intro hne
    refine ⟨?_, hlook⟩
    by_contra hno
    push_neg at hno
    have hall := (no_conflict_iff true k records).mp hno
    have h1 := hall v1 (by rw [h]; exact List.mem_cons_self _ _)
    rw [h] at h1
    have h2 : some v1 = some v2 := h1
    exact hne (Option.some.inj h2)
  · intro heq l
    refine (no_conflict_iff true k records).mpr ?_ l
    intro v hv
    rw [h] at hv ⊢
    rcases List.mem_cons.mp hv with hv | hv
    · rw [hv, heq]
      rfl
    · rw [List.mem_singleton.mp hv]
      rfl
  · intro x hx
    rw [alookup_mergeDoc doc _ k (nodup_actual true records), hlook, hx]
  · intro hx
    rw [alookup_mergeDoc doc _ k (nodup_actual true records), hlook, hx]

/-- Witness for C2 (amended) at a concrete input: key compared to 1 then to
2, both inside passing asserts; the conflict is warned about and 2 is
kept. -/
theorem c2_conflicting_values_witness :
    (∃ l, Warning.conflicting "k" l ∈ (runTeardownWalk true
        [Record.comparison 0 ⟨"k", Val.int 1, false, true⟩ 1, Record.assertion 1,
         Record.comparison 1 ⟨"k", Val.int 2, false, true⟩ 2, Record.assertion 2]).warns)
    ∧ alookup "k" (runTeardownWalk true
        [Record.comparison 0 ⟨"k", Val.int 1, false, true⟩ 1, Record.assertion 1,
         Record.comparison 1 ⟨"k", Val.int 2, false, true⟩ 2, Record.assertion 2]).actual
      = some (MVal.val (Val.int 2)) :=
  (c2_conflicting_values "k"
      [Record.comparison 0 ⟨"k", Val.int 1, false, true⟩ 1, Record.assertion 1,
       Record.comparison 1 ⟨"k", Val.int 2, false, true⟩ 2, Record.assertion 2]
      [] (MVal.val (Val.int 1)) (MVal.val (Val.int 2)) (by decide)).1 (by decide)

/-- C3 counterexample to the claim as stated: comparing two placeholders
raises `TypeError`, not the plugin's `UsageError` class. -/
theorem c3_counterexample :
    goldenEq ⟨"a", false⟩ (Operand.placeholder ⟨"b", true⟩) ≠
      Except.error PyError.usageError := by
  intro h
  exact PyError.noConfusion (Except.error.inj h)

/-- C3 (amended): comparing one output placeholder to another, with either
`==` or `!=`, fails immediately with a `TypeError`, for every pair of
placeholders regardless of their keys or optional flags. -/
theorem c3_placeholder_comparison (p q : GoldenOutput) :
    goldenEq p (Operand.placeholder q) = Except.error PyError.typeError
    ∧ goldenNe p (Operand.placeholder q) = Except.error PyError.typeError :=
  ⟨rfl, rfl⟩

/-- C4 counterexample to the claim as stated: a document key accessed only
through the output placeholder API, never read via the input API, is in the
final merged document but triggers no unused-fields warning, because output
access also marks the key used. -/
theorem c4_counterexample :
    inputReadKeys
        [SessionOp.outItem "k",
         SessionOp.evalBool 0 ⟨"k", Val.int 7, false, true⟩ [(FrameCode.testFunc, 1)],
         SessionOp.assertionPass 1] = []
    ∧ "k" ∈ (teardown ⟨true, true, "f.py", 10⟩ "t"
        (runOps
          [SessionOp.outItem "k",
           SessionOp.evalBool 0 ⟨"k", Val.int 7, false, true⟩ [(FrameCode.testFunc, 1)],
           SessionOp.assertionPass 1])
        []).doc.map Prod.fst
    ∧ (teardown ⟨true, true, "f.py", 10⟩ "t"
        (runOps
          [SessionOp.outItem "k",
           SessionOp.evalBool 0 ⟨"k", Val.int 7, false, true⟩ [(FrameCode.testFunc, 1)],
           SessionOp.assertionPass 1])
        []).warnings = [] := by
  decide

/-- C4 (amended): at an Update-mode teardown the unused-fields warning is
emitted exactly once, attributed to the test function's source location,
precisely when the final merged document contains at least one key that was
never marked used — where both input reads and output placeholder creation
mark a key used. -/
theorem c4_unused_fields (fx : Fixture) (h : fx.updateGoldens = true)
    (itemName : String) (s : Session) (doc : List (String × Val)) :
    ((teardown fx itemName s doc).warnings.filter isUnusedWarning =
      (if unusedKeysOf (teardown fx itemName s doc).doc s.usedFields = [] then []
       else [Warning.unusedFields
              (unusedKeysOf (teardown fx itemName s doc).doc s.usedFields)
              itemName fx.funcFile fx.funcLine]))
    ∧ ((∃ w ∈ (teardown fx itemName s doc).warnings, isUnusedWarning w = true) ↔
        ∃ k, k ∈ (teardown fx itemName s doc).doc.map Prod.fst ∧ k ∉ s.usedFields) := by
  rw [teardown_update fx h itemName s doc]
  dsimp only
  have hrev : ∀ w ∈ (runTeardownWalk fx.assertionsEnabled s.records).warns.reverse,
      isUnusedWarning w = false := by
    intro w hw
    rw [runTeardownWalk_eq] at hw
    exact no_unused_in_walk fx.assertionsEnabled s.records w (List.mem_reverse.mp hw)
  have hfilrev : (runTeardownWalk fx.assertionsEnabled s.records).warns.reverse.filter
      isUnusedWarning = [] := by
    rw [List.filter_eq_nil_iff]
    intro w hw
    rw [hrev w hw]
    exact Bool.false_ne_true
  constructor
  · rw [List.filter_append, hfilrev, List.nil_append]
    by_cases hu : unusedKeysOf
        (mergeDoc doc (runTeardownWalk fx.assertionsEnabled s.records).actual)
        s.usedFields = []
    · rw [if_pos hu]
      rfl
    · rw [if_neg hu]
      rfl
  · constructor
    · rintro ⟨w, hw, hu⟩
      rcases List.mem_append.mp hw with hw | hw
      · rw [hrev w hw] at hu
        exact absurd hu Bool.false_ne_true
      · by_cases hnil : unusedKeysOf
            (mergeDoc doc (runTeardownWalk fx.assertionsEnabled s.records).actual)
            s.usedFields = []
        · rw [if_pos hnil] at hw
          exact absurd hw (List.not_mem_nil w)
        · obtain ⟨k, hk⟩ := List.exists_mem_of_ne_nil _ hnil
          have hmem := List.mem_filter.mp hk
          exact ⟨k, hmem.1, of_decide_eq_true hmem.2⟩
    · rintro ⟨k, hk, hku⟩
      have hkf : k ∈ unusedKeysOf
          (mergeDoc doc (runTeardownWalk fx.assertionsEnabled s.records).actual)
          s.usedFields :=
        List.mem_filter.mpr ⟨hk, decide_eq_true hku⟩
      have hnil := List.ne_nil_of_mem hkf
      refine ⟨Warning.unusedFields
          (unusedKeysOf
            (mergeDoc doc (runTeardownWalk fx.assertionsEnabled s.records).actual)
            s.usedFields)
          itemName fx.funcFile fx.funcLine, ?_, rfl⟩
      refine List.mem_append_right _ ?_
      rw [if_neg hnil]
      exact List.mem_singleton.mpr rfl

/-- Witness for C4 (amended) at a concrete input: a document with one key
and an empty session yields exactly one unused-fields warning at the test
function's location. -/
theorem c4_unused_fields_witness :
    ((teardown ⟨true, true, "f.py", 10⟩ "t" emptySession
        [("a", Val.int 1)]).warnings.filter isUnusedWarning =
      (if unusedKeysOf (teardown ⟨true, true, "f.py", 10⟩ "t" emptySession
            [("a", Val.int 1)]).doc emptySession.usedFields = [] then []
       else [Warning.unusedFields
              (unusedKeysOf (teardown ⟨true, true, "f.py", 10⟩ "t" emptySession
                [("a", Val.int 1)]).doc emptySession.usedFields)
              "t" (Fixture.funcFile ⟨true, true, "f.py", 10⟩)
              (Fixture.funcLine ⟨true, true, "f.py", 10⟩)]))
    ∧ ((∃ w ∈ (teardown ⟨true, true, "f.py", 10⟩ "t" emptySession
          [("a", Val.int 1)]).warnings, isUnusedWarning w = true) ↔
        ∃ k, k ∈ (teardown ⟨true, true, "f.py", 10⟩ "t" emptySession
          [("a", Val.int 1)]).doc.map Prod.fst ∧ k ∉ emptySession.usedFields) :=
  c4_unused_fields ⟨true, true, "f.py", 10⟩ rfl "t" emptySession [("a", Val.int 1)]

/-- C5 counterexample to the claim as stated: evaluating the truth value of
the same comparison event twice in an approved context appends a record
each time, so the event is recorded more than once. -/
theorem c5_counterexample :
    ((boolEval 0 ⟨"k", Val.int 1, false, true⟩ [(FrameCode.testFunc, 4)]
        (boolEval 0 ⟨"k", Val.int 1, false, true⟩ [(FrameCode.testFunc, 4)]
          emptySession).1).1.records.count
      (Record.comparison 0 ⟨"k", Val.int 1, false, true⟩ 4) = 2)
    ∧ ¬ ((boolEval 0 ⟨"k", Val.int 1, false, true⟩ [(FrameCode.testFunc, 4)]
        (boolEval 0 ⟨"k", Val.int 1, false, true⟩ [(FrameCode.testFunc, 4)]
          emptySession).1).1.records.count
      (Record.comparison 0 ⟨"k", Val.int 1, false, true⟩ 4) ≤ 1) := by
  decide

/-- C5 (amended): one truth-value evaluation of a comparison event appends
at most one record to the event log — the stack scan stops at the first
approved frame — while each further approved evaluation of the same event
appends again. -/
theorem c5_single_append_per_evaluation (cid : Nat) (c : GoldenComparison)
    (stack : List (FrameCode × Nat)) (s : Session) :
    (boolEval cid c stack s).1.records = s.records
    ∨ ∃ l, findApproved stack = some l
        ∧ (boolEval cid c stack s).1.records =
            s.records ++ [Record.comparison cid c l] := by
  cases h : findApproved stack with
  | none => exact Or.inl (by simp [boolEval, h])
  | some l => exact Or.inr ⟨l, rfl, by simp [boolEval, h]⟩

/-- C6: evaluating a comparison event's truth value returns its `eq` flag:
a comparison built by `==` evaluates to `True` and one built by `!=`
evaluates to `False`, independent of the actual value, the stored expected
value (never consulted), the call stack and the session state. -/
theorem c6_bool_returns_eq (cid : Nat) (p : GoldenOutput) (v : Val)
    (stack : List (FrameCode × Nat)) (s : Session) :
    (∀ r, goldenEq p (Operand.value v) = Except.ok r →
        (boolEval cid r.comparison stack s).2 = true)
    ∧ (∀ r, goldenNe p (Operand.value v) = Except.ok r →
        (boolEval cid r.comparison stack s).2 = false) := by
  constructor
  · intro r h
    have hr : r = ⟨⟨p.key, v, p.optional, true⟩, []⟩ := by
      have h2 : Except.ok (ε := PyError) (⟨⟨p.key, v, p.optional, true⟩, []⟩ :
          CompResult) = Except.ok r := h
      exact (Except.ok.inj h2).symm
    rw [hr, boolEval_snd]
  · intro r h
    have hr : r = ⟨⟨p.key, v, p.optional, false⟩, [Warning.onlyEqComparison p.key]⟩ := by
      have h2 : Except.ok (ε := PyError)
          (⟨⟨p.key, v, p.optional, false⟩, [Warning.onlyEqComparison p.key]⟩ :
            CompResult) = Except.ok r := h
      exact (Except.ok.inj h2).symm
    rw [hr, boolEval_snd]

/-- Witness for C6 at a concrete input. -/
theorem c6_bool_returns_eq_witness :
    (boolEval 0 (⟨⟨"k", Val.int 3, false, true⟩, []⟩ : CompResult).comparison []
      emptySession).2 = true
    ∧ (boolEval 0 (⟨⟨"k", Val.int 3, false, false⟩,
        [Warning.onlyEqComparison "k"]⟩ : CompResult).comparison []
      emptySession).2 = false :=
  ⟨(c6_bool_returns_eq 0 ⟨"k", false⟩ (Val.int 3) [] emptySession).1
      ⟨⟨"k", Val.int 3, false, true⟩, []⟩ rfl,
    (c6_bool_returns_eq 0 ⟨"k", false⟩ (Val.int 3) [] emptySession).2
      ⟨⟨"k", Val.int 3, false, false⟩, [Warning.onlyEqComparison "k"]⟩ rfl⟩

/-- C7: with the assertion-pass hook disabled, the approval gate never
rejects: no outside-of-an-assert warning is ever emitted, the accepted
comparisons are all recorded comparisons, and each key of the reconciled map
holds the value of the last-executed recorded comparison for it, approved or
not. -/
theorem c7_hook_disabled (k : String) (records : List Record) :
    (∀ key l, Warning.outsideAssert key l ∉ (runTeardownWalk false records).warns)
    ∧ acceptedFor false k records = comparisonsFor k records
    ∧ alookup k (runTeardownWalk false records).actual =
        lastVal (comparisonsFor k records) := by
  simp only [runTeardownWalk_eq]
  refine ⟨no_outsideAssert_disabled records, acceptedFor_false k records, ?_⟩
  rw [alookup_actual, acceptedFor_false]

/-- C8: an accepted optional comparison whose actual value is `None`
contributes the absent marker instead of `None`; and whenever the reconciled
map holds the absent marker at a key, the merge deletes that key from the
persisted document rather than writing a value for it. -/
theorem c8_absent_removal (c : GoldenComparison) (hopt : c.optional = true)
    (hnone : c.other = Val.none) (e : Bool) (records : List Record)
    (doc : List (String × Val)) (k : String)
    (habs : alookup k (runTeardownWalk e records).actual = some MVal.absent) :
    storedVal c = MVal.absent
    ∧ alookup k (mergeDoc doc (runTeardownWalk e records).actual) = Option.none := by
  rw [runTeardownWalk_eq] at habs ⊢
  constructor
  · rw [storedVal, if_pos ⟨hopt, hnone⟩]
  · rw [alookup_mergeDoc doc _ k (nodup_actual e records), habs]

/-- Witness for C8 at a concrete input: an approved optional comparison to
`None` deletes the previously present key from the document. -/
theorem c8_absent_removal_witness :
    storedVal ⟨"k", Val.none, true, true⟩ = MVal.absent
    ∧ alookup "k" (mergeDoc [("k", Val.int 5)]
        (runTeardownWalk true
          [Record.comparison 0 ⟨"k", Val.none, true, true⟩ 1,
           Record.assertion 1]).actual) = Option.none :=
  c8_absent_removal ⟨"k", Val.none, true, true⟩ rfl rfl true
    [Record.comparison 0 ⟨"k", Val.none, true, true⟩ 1, Record.assertion 1]
    [("k", Val.int 5)] "k" (by decide)

/-- C9: in Compare mode, teardown performs no write and leaves the document
unchanged and emits nothing, regardless of the session contents, the item
name and the document. -/
theorem c9_compare_mode_no_write (fx : Fixture) (h : fx.updateGoldens = false)
    (itemName : String) (s : Session) (doc : List (String × Val)) :
    teardown fx itemName s doc = ⟨doc, [], false⟩ :=
  teardown_compare fx h itemName s doc

/-- Witness for C9 at a concrete input. -/
theorem c9_compare_mode_no_write_witness :
    teardown ⟨false, true, "f.py", 10⟩ "t"
        ⟨["x"], [Record.comparison 0 ⟨"k", Val.int 1, false, true⟩ 1]⟩
        [("k", Val.int 5)]
      = ⟨[("k", Val.int 5)], [], false⟩ :=
  c9_compare_mode_no_write ⟨false, true, "f.py", 10⟩ rfl "t"
    ⟨["x"], [Record.comparison 0 ⟨"k", Val.int 1, false, true⟩ 1]⟩
    [("k", Val.int 5)]

/-- C10: creating an output placeholder for a key adds that key to the
used-field set, so a key that is only ever compared as an output and never
read as an input is not counted among the unused fields at teardown. -/
theorem c10_output_access_marks_used (ops : List SessionOp) (k : String)
    (h : SessionOp.outItem k ∈ ops ∨ SessionOp.outGet k ∈ ops)
    (fx : Fixture) (itemName : String) (doc : List (String × Val)) :
    k ∈ (runOps ops).usedFields
    ∧ ∀ fields nm file line,
        Warning.unusedFields fields nm file line ∈
          (teardown fx itemName (runOps ops) doc).warnings →
        k ∉ fields := by
  have hmem : k ∈ (runOps ops).usedFields :=
    mem_usedFields_foldl ops emptySession k (Or.inr h)
  refine ⟨hmem, ?_⟩
  intro fields nm file line hw
  cases hupd : fx.updateGoldens with
  | false =>
      rw [teardown_compare fx hupd itemName _ doc] at hw
      exact absurd hw (List.not_mem_nil _)
  | true =>
      rw [teardown_update fx hupd itemName _ doc] at hw
      dsimp only at hw
      rcases List.mem_append.mp hw with hw | hw
      · have hwalk := no_unused_in_walk fx.assertionsEnabled (runOps ops).records _
          (List.mem_reverse.mp (by rw [← runTeardownWalk_eq]; exact hw))
        exact absurd hwalk (by simp [isUnusedWarning])
      · by_cases hu : unusedKeysOf
            (mergeDoc doc (runTeardownWalk fx.assertionsEnabled (runOps ops).records).actual)
            (runOps ops).usedFields = []
        · rw [if_pos hu] at hw
          exact absurd hw (List.not_mem_nil _)
        · rw [if_neg hu, List.mem_singleton] at hw
          injection hw with h1 h2 h3 h4
          subst h1
          intro hk
          have hmf := List.mem_filter.mp hk
          exact of_decide_eq_true hmf.2 hmem

/-- Witness for C10 at a concrete input. -/
theorem c10_output_access_marks_used_witness :
    "k" ∈ (runOps [SessionOp.outItem "k"]).usedFields
    ∧ ∀ fields nm file line,
        Warning.unusedFields fields nm file line ∈
          (teardown ⟨true, true, "f.py", 10⟩ "t" (runOps [SessionOp.outItem "k"])
            [("k", Val.int 1)]).warnings →
        "k" ∉ fields :=
  c10_output_access_marks_used [SessionOp.outItem "k"] "k" (Or.inl (by decide))
    ⟨true, true, "f.py", 10⟩ "t" [("k", Val.int 1)]

end PytestGolden
